import Mathlib

/-!
Shallow embedding of google/fractribution's attribution core
(src/py/fractribution.py, src/py/fractribution_model/*) in Lean 4.

Modelling conventions:
* Python dicts are association lists (`List (key × value)`): insertion
  appends at the end, assignment to an existing key updates the value in
  place, mirroring Python's insertion-order semantics.
* Python floats are modelled as exact rationals (`ℚ`).
* Python functions that can raise return `Except String`.
-/

/-- First value bound to key `k` in the association list, `none` if absent.
Models Python `d[k]` lookup / `k in d`. -/
def alGet {α β : Type} [DecidableEq α] (m : List (α × β)) (k : α) : Option β :=
  match m with
  | [] => none
  | (k', v) :: rest => if k' = k then some v else alGet rest k

/-- Models Python `d[k] = v`: update in place if the key exists (keeping its
position), otherwise append at the end. -/
def alSet {α β : Type} [DecidableEq α] (m : List (α × β)) (k : α) (v : β) :
    List (α × β) :=
  match m with
  | [] => [(k, v)]
  | (k', v') :: rest => if k' = k then (k, v) :: rest else (k', v') :: alSet rest k v

/-- The values of an association list, in order (Python `d.values()`). -/
def alValues {α β : Type} (m : List (α × β)) : List β := m.map Prod.snd

/-- Sum of the values of a rational-valued association list
(Python `sum(d.values())`). -/
def sumValues {α : Type} (m : List (α × ℚ)) : ℚ := (alValues m).sum

/-!  ### Python `str.split(' > ')` and `' > '.join`

`splitPath` scans the character list left to right, splitting on each
non-overlapping occurrence of the literal three-character separator
`" > "`, exactly as Python `str.split(' > ')` does.  The accumulator holds
the current piece reversed. -/

def splitPath : List Char → List Char → List (List Char)
  | [], acc => [acc.reverse]
  | ' ' :: '>' :: ' ' :: rest, acc => acc.reverse :: splitPath rest []
  | c :: rest, acc => splitPath rest (c :: acc)

/-- Python `path_str.split(' > ')` on a Lean `String`. -/
def splitOnSep (s : String) : List String :=
  (splitPath s.toList []).map (fun cs => String.mk cs)

/-- Python `' > '.join(path_tuple)`. -/
def joinPath (path_tuple : List String) : String :=
  String.intercalate " > " path_tuple

/-! ### src/py/fractribution.py : `_PathSummary` and the `Fractribution` store -/

/-- `_PathSummary` from src/py/fractribution.py: conversion counts, revenue
and the (initially empty) per-channel attribution map. -/
structure PathSummary where
  conversions : Nat
  non_conversions : Nat
  revenue : ℚ
  channel_to_attribution : List (String × ℚ)
  deriving DecidableEq, Repr

/-- `Fractribution._path_tuple_to_summary`: a dict keyed by path tuple. -/
abbrev PathStore := List (List String × PathSummary)

/-- One input record `(path_str, conversions, non_conversions, revenue)`
as consumed by `Fractribution.__init__`. -/
abbrev SummaryRecord := String × Nat × Nat × ℚ

/-- The key computed by `Fractribution.__init__` for one query row: the
empty tuple for an empty `path_str`, otherwise the split on " > ". -/
def initPathTuple (path_str : String) : List String :=
  if path_str = "" then [] else splitOnSep path_str

/-- Body of the loop in `Fractribution.__init__`: fold one query row into
the store.  An empty `path_str` is keyed by the empty tuple; a duplicate
key adds `conversions` and `non_conversions` into the existing entry
(revenue is not touched on merge, exactly as in the source). -/
def initStep (store : PathStore) (record : SummaryRecord) : PathStore :=
  let (path_str, conversions, non_conversions, revenue) := record
  let path_tuple : List String := initPathTuple path_str
  match alGet store path_tuple with
  | none =>
      store ++ [(path_tuple, ⟨conversions, non_conversions, revenue, []⟩)]
  | some path_summary =>
      alSet store path_tuple
        { path_summary with
          conversions := path_summary.conversions + conversions
          non_conversions := path_summary.non_conversions + non_conversions }

/-- `Fractribution.__init__`: fold all query rows into an empty store. -/
def buildStore (records : List SummaryRecord) : PathStore :=
  records.foldl initStep []

/-- `Fractribution._get_conversion_probability`. -/
def get_conversion_probability (store : PathStore) (path_tuple : List String) : ℚ :=
  match alGet store path_tuple with
  | none => 0
  | some path_summary =>
      let count := path_summary.conversions + path_summary.non_conversions
      if count = 0 then 0 else (path_summary.conversions : ℚ) / (count : ℚ)

/-- `Fractribution._get_counterfactual_marginal_contributions`. -/
def get_counterfactual_marginal_contributions
    (store : PathStore) (path_tuple : List String) : List ℚ :=
  if path_tuple = [] then []
  else if path_tuple.length = 1 then [get_conversion_probability store path_tuple]
  else
    (List.range path_tuple.length).map (fun i =>
      max (get_conversion_probability store path_tuple -
           get_conversion_probability store (path_tuple.eraseIdx i)) 0)

/-- Python `marginal_contributions[-1] = 1` (only called on non-empty lists;
on `[]` the source would raise, we return `[]`). -/
def setLastOne (l : List ℚ) : List ℚ :=
  match l with
  | [] => []
  | _ => l.dropLast ++ [1]

/-- Per-entry body of the loop in `Fractribution.run_shapley_attribution`.
Entries with an empty path tuple or zero conversions are skipped
(`continue`) and returned unchanged. -/
def shapleyUpdate (store : PathStore) (entry : List String × PathSummary) :
    List String × PathSummary :=
  let (path_tuple, path_summary) := entry
  if path_tuple = [] ∨ path_summary.conversions = 0 then (path_tuple, path_summary)
  else
    let marginal_contributions :=
      get_counterfactual_marginal_contributions store path_tuple
    let sum_marginal_contributions := marginal_contributions.sum
    let marginal_contributions :=
      if sum_marginal_contributions ≠ 0 then
        marginal_contributions.map (· / sum_marginal_contributions)
      else marginal_contributions
    let marginal_contributions :=
      if sum_marginal_contributions = 0 then setLastOne marginal_contributions
      else marginal_contributions
    (path_tuple,
      { path_summary with
        channel_to_attribution :=
          (path_tuple.zip marginal_contributions).foldl
            (fun m p => alSet m p.1 (p.2 + (alGet m p.1).getD 0)) [] })

/-- `Fractribution.run_shapley_attribution`.  The in-place mutation of each
`_PathSummary` is modelled as a map over the store; conversion-probability
lookups during the loop only read counts, which the loop never mutates, so
mapping with the original store is faithful. -/
def run_shapley_attribution (store : PathStore) : PathStore :=
  store.map (shapleyUpdate store)

/-- Per-entry body of `Fractribution.run_first_touch_attribution`: the credit
map is reset to `{}` for every entry, then every channel is set to `0.0` and
the first channel to `1` (empty paths are skipped after the reset). -/
def firstTouchUpdate (entry : List String × PathSummary) :
    List String × PathSummary :=
  let (path_tuple, path_summary) := entry
  let path_summary := { path_summary with channel_to_attribution := [] }
  if path_tuple = [] then (path_tuple, path_summary)
  else
    let m := path_tuple.foldl (fun m channel => alSet m channel 0) []
    (path_tuple,
      { path_summary with channel_to_attribution := alSet m (path_tuple.headD "") 1 })

/-- `Fractribution.run_first_touch_attribution`. -/
def run_first_touch_attribution (store : PathStore) : PathStore :=
  store.map firstTouchUpdate

/-- Per-entry body of `Fractribution.run_last_touch_attribution`. -/
def lastTouchUpdate (entry : List String × PathSummary) :
    List String × PathSummary :=
  let (path_tuple, path_summary) := entry
  let path_summary := { path_summary with channel_to_attribution := [] }
  if path_tuple = [] then (path_tuple, path_summary)
  else
    let m := path_tuple.foldl (fun m channel => alSet m channel 0) []
    (path_tuple,
      { path_summary with
        channel_to_attribution := alSet m (path_tuple.getLastD "") 1 })

/-- `Fractribution.run_last_touch_attribution`. -/
def run_last_touch_attribution (store : PathStore) : PathStore :=
  store.map lastTouchUpdate

/-- Per-entry body of `Fractribution.run_linear_attribution`. -/
def linearUpdate (entry : List String × PathSummary) :
    List String × PathSummary :=
  let (path_tuple, path_summary) := entry
  let path_summary := { path_summary with channel_to_attribution := [] }
  if path_tuple = [] then (path_tuple, path_summary)
  else
    let credit : ℚ := 1 / (path_tuple.length : ℚ)
    (path_tuple,
      { path_summary with
        channel_to_attribution :=
          path_tuple.foldl
            (fun m channel => alSet m channel ((alGet m channel).getD 0 + credit)) [] })

/-- `Fractribution.run_linear_attribution`. -/
def run_linear_attribution (store : PathStore) : PathStore :=
  store.map linearUpdate

/-- Per-entry body of `Fractribution.run_position_based_attribution`:
first and last positions get 0.4 each, the leftover 0.2 is spread over the
middle (or over the whole path when it has fewer than 3 elements). -/
def positionBasedUpdate (entry : List String × PathSummary) :
    List String × PathSummary :=
  let (path_tuple, path_summary) := entry
  let path_summary := { path_summary with channel_to_attribution := [] }
  if path_tuple = [] then (path_tuple, path_summary)
  else
    let m : List (String × ℚ) := alSet [] (path_tuple.headD "") (2/5)
    let last := path_tuple.getLastD ""
    let m := alSet m last ((alGet m last).getD 0 + 2/5)
    let leftover_middle : ℚ × List String :=
      if path_tuple.length = 1 then (1/5, path_tuple)
      else if path_tuple.length = 2 then (1/10, path_tuple)
      else ((1/5) / ((path_tuple.length : ℚ) - 2), (path_tuple.drop 1).dropLast)
    (path_tuple,
      { path_summary with
        channel_to_attribution :=
          leftover_middle.2.foldl
            (fun m channel =>
              alSet m channel ((alGet m channel).getD 0 + leftover_middle.1)) m })

/-- `Fractribution.run_position_based_attribution`. -/
def run_position_based_attribution (store : PathStore) : PathStore :=
  store.map positionBasedUpdate

/-- The five keys of `Fractribution.ATTRIBUTION_MODELS`. -/
inductive AttributionModel
  | shapley
  | first_touch
  | last_touch
  | position_based
  | linear
  deriving DecidableEq, Repr

/-- `Fractribution.run_fractribution`: dispatch on the model name. -/
def run_fractribution (model : AttributionModel) (store : PathStore) : PathStore :=
  match model with
  | .shapley => run_shapley_attribution store
  | .first_touch => run_first_touch_attribution store
  | .last_touch => run_last_touch_attribution store
  | .position_based => run_position_based_attribution store
  | .linear => run_linear_attribution store

/-! ### src/py/fractribution_model/tuple_transforms.py -/

/-- `tuple_transforms.unique_transform`: the identity transform. -/
def unique_transform (t : List String) : List String := t

/-- `tuple_transforms.exposure_transform`: collapse sequential duplicates. -/
def exposure_transform (t : List String) : List String :=
  match t with
  | [] => []
  | x :: rest =>
      x :: (rest.zip t).filterMap (fun p => if p.1 ≠ p.2 then some p.1 else none)

/-- `tuple_transforms.first_transform`: keep only the first occurrence of
each distinct event, in first-seen order. -/
def first_transform (t : List String) : List String :=
  (t.foldl (fun elements element =>
    if element ∈ elements then elements else elements ++ [element]) [])

/-- Python `re.search(r'\(|\)', event)`: the event contains a parenthesis. -/
def hasParen (event : String) : Bool :=
  event.toList.contains '(' || event.toList.contains ')'

/-- First loop of `tuple_transforms.frequency_transform`: count events,
raising ValueError on an event containing `(` or `)`. -/
def countEvents : List String → List (String × Nat) →
    Except String (List (String × Nat))
  | [], event_to_count => .ok event_to_count
  | event :: rest, event_to_count =>
      if hasParen event then
        .error ("Frequency transform forbids event names with parens. " ++
                "See event: " ++ event)
      else
        countEvents rest (alSet event_to_count event
          ((alGet event_to_count event).getD 0 + 1))

/-- Second loop of `tuple_transforms.frequency_transform`: emit one
`event(count)` token per distinct event at its first occurrence, resetting
the count to 0 afterwards. -/
def freqCollapse : List String → List (String × Nat) → List String
  | [], _ => []
  | event :: rest, event_to_count =>
      let count := (alGet event_to_count event).getD 0
      if count > 0 then
        (event ++ "(" ++ toString count ++ ")") ::
          freqCollapse rest (alSet event_to_count event 0)
      else freqCollapse rest event_to_count

/-- `tuple_transforms.frequency_transform`. -/
def frequency_transform (t : List String) : Except String (List String) :=
  match countEvents t [] with
  | .error e => .error e
  | .ok event_to_count => .ok (freqCollapse t event_to_count)

/-! ### src/py/fractribution_model/tuple_path.py -/

/-- `tuple_path.Path`. -/
structure TuplePath where
  path_tuple : List String
  total_conversions : Nat
  total_non_conversions : Nat
  event_to_attribution : List (String × ℚ)
  deriving DecidableEq, Repr

/-- `tuple_path.Path.get_conversion_probability`. -/
def TuplePath.get_conversion_probability (p : TuplePath) : ℚ :=
  let path_instances := p.total_conversions + p.total_non_conversions
  if path_instances = 0 then 0
  else (p.total_conversions : ℚ) / (path_instances : ℚ)

/-! ### src/py/fractribution_model/fractribution.py : channel encoder -/

/-- Structural-fuel version of bijective base-26 digit extraction: the
digit string (most significant first, digits in `0..25`) that
`_create_channel_mapping_iterator` assigns at offset `m - 1`.  The fuel is
only there to make the recursion structural; `m / 26 ≤ fuel` always holds
on the calls we make. -/
def bijDigitsAux : Nat → Nat → List Nat
  | 0, _ => []
  | _ + 1, 0 => []
  | fuel + 1, m + 1 => bijDigitsAux fuel (m / 26) ++ [m % 26]

/-- Bijective base-26 digits of `n` (empty for `n = 0`). -/
def bijDigits (n : Nat) : List Nat := bijDigitsAux n n

/-- Evaluate a bijective base-26 digit string back to its number. -/
def fromBijDigits (l : List Nat) : Nat :=
  l.foldl (fun acc d => acc * 26 + d + 1) 0

/-- The `n`-th string yielded by
`fractribution._create_channel_mapping_iterator` (0-indexed): all length-1
lowercase words `a..z`, then all length-2 words `aa..zz`, and so on, which
is exactly the bijective base-26 numeral of `n + 1` over `a..z`. -/
def natToToken (n : Nat) : String :=
  String.mk ((bijDigits (n + 1)).map (fun d => Char.ofNat (97 + d)))

/-- Inverse used to prove `natToToken` never repeats a token. -/
def tokenToNat (s : String) : Nat :=
  fromBijDigits (s.toList.map (fun c => c.toNat - 97)) - 1

/-- Per-channel step of the encoding loop in
`fractribution.transform_paths`: allocate the next token for an unseen
channel (the iterator has yielded exactly `enc.length` tokens so far), then
append the channel's encoding.  The accumulator carries the table and the
reversed list of encoded channels. -/
def encodeChannelStep (acc : List (String × String) × List String)
    (channel : String) : List (String × String) × List String :=
  let enc :=
    if (alGet acc.1 channel).isSome then acc.1
    else acc.1 ++ [(channel, natToToken acc.1.length)]
  (enc, (alGet enc channel).getD "" :: acc.2)

/-- One iteration of the record loop in `fractribution.transform_paths`. -/
def transformPathsStep
    (path_transform : List String → List String)
    (acc : List (List String × TuplePath) × List (String × String))
    (record : String × Nat × Nat) :
    List (List String × TuplePath) × List (String × String) :=
  let (store, channel_to_encoding) := acc
  let (path_str, num_conversions, num_non_conversions) := record
  let channels := splitOnSep path_str
  let encState := channels.foldl encodeChannelStep (channel_to_encoding, [])
  let channel_to_encoding := encState.1
  let encoded_channels := encState.2.reverse
  let path : TuplePath :=
    ⟨path_transform encoded_channels, num_conversions, num_non_conversions, []⟩
  let store :=
    match alGet store path.path_tuple with
    | none => store ++ [(path.path_tuple, path)]
    | some existing_path =>
        alSet store path.path_tuple
          { existing_path with
            total_conversions :=
              existing_path.total_conversions + path.total_conversions
            total_non_conversions :=
              existing_path.total_non_conversions + path.total_non_conversions }
  (store, channel_to_encoding)

/-- `fractribution.transform_paths`: returns the transformed-tuple store and
the channel-to-encoding table. -/
def transform_paths
    (records : List (String × Nat × Nat))
    (path_transform : List String → List String) :
    List (List String × TuplePath) × List (String × String) :=
  records.foldl (transformPathsStep path_transform) ([], [])

/-! ### src/py/fractribution_model/fractribution_report.py -/

/-- `fractribution_report.UNMATCHED_CHANNEL`. -/
def UNMATCHED_CHANNEL : String := "Unmatched Channel"

/-- `tuple_path.Path.get_path_string` with a non-empty `encoding_to_event`
mapping: decode each event, keeping any `(count)` suffix (Python
`event.find('(') > 0`).  An unknown encoded event raises KeyError, modelled
as `.error`. -/
def decodeEvents (encoding_to_event : List (String × String)) :
    List String → Except String (List String)
  | [] => .ok []
  | encoded_event :: rest => do
      let cs := encoded_event.toList
      let decoded ←
        match cs.findIdx? (· = '(') with
        | some parens_index =>
            if 0 < parens_index then
              match alGet encoding_to_event (String.mk (cs.take parens_index)) with
              | none => Except.error "KeyError"
              | some event => pure (event ++ String.mk (cs.drop parens_index))
            else
              match alGet encoding_to_event encoded_event with
              | none => Except.error "KeyError"
              | some event => pure event
        | none =>
            match alGet encoding_to_event encoded_event with
            | none => Except.error "KeyError"
            | some event => pure event
      let tail ← decodeEvents encoding_to_event rest
      pure (decoded :: tail)

/-- `tuple_path.Path.get_path_string`. -/
def getPathString (path_tuple : List String)
    (encoding_to_event : List (String × String)) : Except String String :=
  if encoding_to_event = [] then .ok (joinPath path_tuple)
  else (decodeEvents encoding_to_event path_tuple).map joinPath

/-- The dict comprehension decoding `path.event_to_attribution` at the end
of `fractribution_report.get_path_and_event_to_attribution`; an encoded
event missing from the inverse table raises KeyError. -/
def decodeAttributionMap (encoding_to_channel : List (String × String)) :
    List (String × ℚ) → List (String × ℚ) →
    Except String (List (String × ℚ))
  | [], acc => .ok acc
  | (event, attribution) :: rest, acc =>
      match alGet encoding_to_channel event with
      | none => .error "KeyError"
      | some channel =>
          decodeAttributionMap encoding_to_channel rest (alSet acc channel attribution)

/-- `fractribution_report.get_path_and_event_to_attribution`.  The three
recoverable conditions (empty path string, unseen channel name, empty
attribution map on the looked-up path) return the default
`{Unmatched Channel: 1.0}`; a transformed tuple missing from the store is
an uncaught Python KeyError, modelled as `.error`. -/
def get_path_and_event_to_attribution
    (path_transform : List String → List String)
    (transformed_tuple_to_path : List (List String × TuplePath))
    (channel_to_encoding : List (String × String))
    (path_string : String) (_customer_id : String) :
    Except String (String × List (String × ℚ)) :=
  let encoding_to_channel := channel_to_encoding.map (fun p => (p.2, p.1))
  let default_event_to_attribution : List (String × ℚ) := [(UNMATCHED_CHANNEL, 1)]
  if path_string = "" then .ok (path_string, default_event_to_attribution)
  else
    let channels := splitOnSep path_string
    if channels.any (fun channel => (alGet channel_to_encoding channel).isNone) then
      .ok (path_string, default_event_to_attribution)
    else
      let encoded_channels :=
        channels.map (fun channel => (alGet channel_to_encoding channel).getD "")
      let transformed_tuple := path_transform encoded_channels
      match alGet transformed_tuple_to_path transformed_tuple with
      | none => .error "KeyError"
      | some path =>
          if path.event_to_attribution = [] then
            .ok (path_string, default_event_to_attribution)
          else do
            let decoded_path ← getPathString path.path_tuple encoding_to_channel
            let decoded_map ←
              decodeAttributionMap encoding_to_channel path.event_to_attribution []
            pure (decoded_path, decoded_map)

/-- `fractribution_report.construct_report_table_row`.  The row is the five
leading columns, one attribution column per configured channel, and the
trailing `total_attribution`; a credit-map channel missing from `channels`
raises ValueError. -/
def construct_report_table_row
    (report_window_start report_window_end path_string customer_id : String)
    (endpoint_datetime : Int)
    (channels : List String)
    (event_to_attribution : List (String × ℚ)) :
    Except String (String × String × String × String × Int × List ℚ × ℚ) :=
  let folded :=
    channels.foldl (fun (acc : List ℚ × ℚ) channel =>
      let attribution_value := (alGet event_to_attribution channel).getD 0
      (acc.1 ++ [attribution_value], acc.2 + attribution_value)) ([], 0)
  if event_to_attribution.any (fun p => decide (p.1 ∉ channels)) then
    .error "Missing channel from channel list."
  else
    .ok (report_window_start, report_window_end, path_string, customer_id,
         endpoint_datetime, folded.1, folded.2)

/-! ### Association-list lemmas -/

theorem alGet_alSet_self {α β : Type} [DecidableEq α]
    (m : List (α × β)) (k : α) (v : β) : alGet (alSet m k v) k = some v := by
  induction m with
  | nil => simp [alGet, alSet]
  | cons hd t ih =>
      obtain ⟨k', v'⟩ := hd
      by_cases hk : k' = k
      · simp [alSet, hk, alGet]
      · simp [alSet, hk, alGet, ih]

theorem alGet_alSet_ne {α β : Type} [DecidableEq α]
    (m : List (α × β)) (k k' : α) (v : β) (h : k' ≠ k) :
    alGet (alSet m k v) k' = alGet m k' := by
  induction m with
  | nil => simp [alGet, alSet, Ne.symm h]
  | cons hd t ih =>
      obtain ⟨k0, v0⟩ := hd
      by_cases hk : k0 = k
      · subst hk
        simp [alSet, alGet, Ne.symm h]
      · by_cases hk' : k0 = k'
        · subst hk'
          simp [alSet, alGet, hk]
        · simp [alSet, alGet, hk, hk', ih]

theorem sumValues_cons {α : Type} (p : α × ℚ) (m : List (α × ℚ)) :
    sumValues (p :: m) = p.2 + sumValues m := by
  simp [sumValues, alValues]

theorem sumValues_alSet_none {α : Type} [DecidableEq α]
    (m : List (α × ℚ)) (k : α) (v : ℚ) (h : alGet m k = none) :
    sumValues (alSet m k v) = sumValues m + v := by
  induction m with
  | nil => simp [alSet, sumValues, alValues]
  | cons hd t ih =>
      obtain ⟨k0, v0⟩ := hd
      by_cases hk : k0 = k
      · simp [alGet, hk] at h
      · simp [alGet, hk] at h
        simp [alSet, hk, sumValues_cons, ih h]
        ring

theorem sumValues_alSet_some {α : Type} [DecidableEq α]
    (m : List (α × ℚ)) (k : α) (v w : ℚ) (h : alGet m k = some w) :
    sumValues (alSet m k v) = sumValues m - w + v := by
  induction m with
  | nil => simp [alGet] at h
  | cons hd t ih =>
      obtain ⟨k0, v0⟩ := hd
      by_cases hk : k0 = k
      · simp [alGet, hk] at h
        subst h
        simp [alSet, hk, sumValues_cons]
        ring
      · simp [alGet, hk] at h
        simp [alSet, hk, sumValues_cons, ih h]
        ring

theorem mem_values_alSet {α β : Type} [DecidableEq α]
    (m : List (α × β)) (k : α) (v x : β)
    (h : x ∈ alValues (alSet m k v)) : x ∈ alValues m ∨ x = v := by
  induction m with
  | nil => simpa [alSet, alValues] using h
  | cons hd t ih =>
      obtain ⟨k0, v0⟩ := hd
      by_cases hk : k0 = k
      · simp [alSet, hk, alValues] at h
        rcases h with h | h
        · right; exact h
        · left; simp [alValues, h]
      · simp [alSet, hk, alValues] at h
        rcases h with h | h
        · left; simp [alValues, h]
        · rcases ih (by simpa [alValues] using h) with h' | h'
          · left; simp [alValues] at h' ⊢; right; exact h'
          · right; exact h'

theorem alGet_mem_values {α β : Type} [DecidableEq α]
    (m : List (α × β)) (k : α) (w : β) (h : alGet m k = some w) :
    w ∈ alValues m := by
  induction m with
  | nil => simp [alGet] at h
  | cons hd t ih =>
      obtain ⟨k0, v0⟩ := hd
      by_cases hk : k0 = k
      · simp [alGet, hk] at h
        simp [alValues, h]
      · simp [alGet, hk] at h
        simp [alValues]
        right
        simpa [alValues] using ih h

theorem getD_nonneg_of_values_nonneg {α : Type} [DecidableEq α]
    (m : List (α × ℚ)) (k : α) (h : ∀ x ∈ alValues m, 0 ≤ x) :
    0 ≤ (alGet m k).getD 0 := by
  cases hg : alGet m k with
  | none => simp
  | some w => simpa using h w (alGet_mem_values m k w hg)

/-- Adding `v` into a dict entry (`d[k] = v + d.get(k, 0)`) adds `v` to the
sum of the values. -/
theorem sumValues_credit_left {α : Type} [DecidableEq α]
    (m : List (α × ℚ)) (k : α) (v : ℚ) :
    sumValues (alSet m k (v + (alGet m k).getD 0)) = sumValues m + v := by
  cases hg : alGet m k with
  | none => simp [sumValues_alSet_none m k _ hg]
  | some w =>
      rw [sumValues_alSet_some m k _ w hg]
      simp only [hg, Option.getD_some]
      ring

/-- Same with the summands in the order `d.get(k, 0) + v`. -/
theorem sumValues_credit_right {α : Type} [DecidableEq α]
    (m : List (α × ℚ)) (k : α) (v : ℚ) :
    sumValues (alSet m k ((alGet m k).getD 0 + v)) = sumValues m + v := by
  rw [add_comm ((alGet m k).getD 0) v]
  exact sumValues_credit_left m k v

/-! ### Fold lemmas for the credit-map accumulation loops -/

/-- Shapley-style accumulation (`d[c] = v + d.get(c, 0)`) over a list of
(channel, value) pairs adds the sum of the values. -/
theorem sumValues_creditFold {α : Type} [DecidableEq α]
    (pairs : List (α × ℚ)) (m0 : List (α × ℚ)) :
    sumValues (pairs.foldl (fun m p => alSet m p.1 (p.2 + (alGet m p.1).getD 0)) m0)
      = sumValues m0 + (pairs.map Prod.snd).sum := by
  induction pairs generalizing m0 with
  | nil => simp
  | cons p rest ih =>
      simp only [List.foldl_cons, ih, sumValues_credit_left, List.map_cons,
        List.sum_cons]
      ring

theorem values_creditFold_nonneg {α : Type} [DecidableEq α]
    (pairs : List (α × ℚ)) (m0 : List (α × ℚ))
    (hm : ∀ x ∈ alValues m0, 0 ≤ x) (hp : ∀ p ∈ pairs, 0 ≤ p.2) :
    ∀ x ∈ alValues
      (pairs.foldl (fun m p => alSet m p.1 (p.2 + (alGet m p.1).getD 0)) m0),
      0 ≤ x := by
  induction pairs generalizing m0 with
  | nil => simpa using hm
  | cons p rest ih =>
      intro x hx
      refine ih _ ?_ (fun q hq => hp q (List.mem_cons_of_mem p hq)) x hx
      intro y hy
      rcases mem_values_alSet _ _ _ _ hy with h | h
      · exact hm y h
      · subst h
        have h1 : 0 ≤ p.2 := hp p (List.mem_cons_self p rest)
        have h2 : 0 ≤ (alGet m0 p.1).getD 0 := getD_nonneg_of_values_nonneg _ _ hm
        linarith

/-- Linear/position-style accumulation (`d[c] = d.get(c, 0) + v`) with a
constant increment `v` adds `length * v`. -/
theorem sumValues_constFold {α : Type} [DecidableEq α]
    (l : List α) (m0 : List (α × ℚ)) (v : ℚ) :
    sumValues (l.foldl (fun m c => alSet m c ((alGet m c).getD 0 + v)) m0)
      = sumValues m0 + l.length * v := by
  induction l generalizing m0 with
  | nil => simp
  | cons c rest ih =>
      simp only [List.foldl_cons, ih, sumValues_credit_right, List.length_cons]
      push_cast
      ring

theorem values_constFold_nonneg {α : Type} [DecidableEq α]
    (l : List α) (m0 : List (α × ℚ)) (v : ℚ)
    (hm : ∀ x ∈ alValues m0, 0 ≤ x) (hv : 0 ≤ v) :
    ∀ x ∈ alValues (l.foldl (fun m c => alSet m c ((alGet m c).getD 0 + v)) m0),
      0 ≤ x := by
  induction l generalizing m0 with
  | nil => simpa using hm
  | cons c rest ih =>
      intro x hx
      refine ih _ ?_ x hx
      intro y hy
      rcases mem_values_alSet _ _ _ _ hy with h | h
      · exact hm y h
      · subst h
        have h2 : 0 ≤ (alGet m0 c).getD 0 := getD_nonneg_of_values_nonneg _ _ hm
        linarith

/-- In the first/last-touch zeroing loop (`d[c] = 0.0` for every channel),
every value of the resulting dict is `0`. -/
theorem values_zeroFold_eq_zero {α : Type} [DecidableEq α]
    (l : List α) (m0 : List (α × ℚ)) (hm : ∀ x ∈ alValues m0, x = 0) :
    ∀ x ∈ alValues (l.foldl (fun m c => alSet m c 0) m0), x = 0 := by
  induction l generalizing m0 with
  | nil => simpa using hm
  | cons c rest ih =>
      intro x hx
      refine ih _ ?_ x hx
      intro y hy
      rcases mem_values_alSet _ _ _ _ hy with h | h
      · exact hm y h
      · exact h

/-- After the zeroing loop, every channel of the path has an entry. -/
theorem alGet_zeroFold_isSome {α : Type} [DecidableEq α]
    (l : List α) (m0 : List (α × ℚ)) (c : α)
    (hc : c ∈ l ∨ (alGet m0 c).isSome) :
    (alGet (l.foldl (fun m k => alSet m k 0) m0) c).isSome := by
  induction l generalizing m0 with
  | nil =>
      rcases hc with h | h
      · simp at h
      · simpa using h
  | cons k rest ih =>
      simp only [List.foldl_cons]
      by_cases hk : c = k
      · subst hk
        exact ih _ (Or.inr (by simp [alGet_alSet_self]))
      · rcases hc with h | h
        · rcases List.mem_cons.mp h with h' | h'
          · exact absurd h' hk
          · exact ih _ (Or.inl h')
        · exact ih _ (Or.inr (by simpa [alGet_alSet_ne _ _ _ _ hk] using h))

theorem sumValues_eq_zero {α : Type} (m : List (α × ℚ))
    (h : ∀ x ∈ alValues m, x = 0) : sumValues m = 0 := by
  unfold sumValues
  exact List.sum_eq_zero h

/-! ### Arithmetic helpers -/

theorem list_sum_map_div (l : List ℚ) (s : ℚ) :
    (l.map (· / s)).sum = l.sum / s := by
  induction l with
  | nil => simp
  | cons x rest ih => simp [ih, add_div]

theorem eq_zero_of_sum_eq_zero (l : List ℚ) (h0 : l.sum = 0)
    (hn : ∀ x ∈ l, 0 ≤ x) : ∀ x ∈ l, x = 0 := by
  intro x hx
  exact List.all_zero_of_le_zero_le_of_sum_eq_zero hn h0 hx

/-! ### Properties of the attribution models -/

theorem get_conversion_probability_nonneg (store : PathStore) (pt : List String) :
    0 ≤ get_conversion_probability store pt := by
  unfold get_conversion_probability
  cases alGet store pt with
  | none => simp
  | some ps =>
      simp only
      split
      · exact le_refl 0
      · positivity

theorem mc_nonneg (store : PathStore) (pt : List String) :
    ∀ x ∈ get_counterfactual_marginal_contributions store pt, 0 ≤ x := by
  unfold get_counterfactual_marginal_contributions
  split
  · simp
  · split
    · intro x hx
      simp only [List.mem_singleton] at hx
      subst hx
      exact get_conversion_probability_nonneg store pt
    · intro x hx
      simp only [List.mem_map] at hx
      obtain ⟨i, _, rfl⟩ := hx
      exact le_max_right _ 0

theorem mc_length (store : PathStore) (pt : List String) (h : pt ≠ []) :
    (get_counterfactual_marginal_contributions store pt).length = pt.length := by
  unfold get_counterfactual_marginal_contributions
  rw [if_neg h]
  split
  · rename_i h1
    simp [h1]
  · simp

theorem setLastOne_length (l : List ℚ) (h : l ≠ []) :
    (setLastOne l).length = l.length := by
  have hl : 1 ≤ l.length := List.length_pos.mpr h
  unfold setLastOne
  match l, h with
  | x :: rest, _ =>
      simp only [List.length_append, List.length_dropLast, List.length_cons,
        List.length_nil]
      omega

theorem setLastOne_mem (l : List ℚ) (x : ℚ) (hx : x ∈ setLastOne l) :
    x ∈ l ∨ x = 1 := by
  unfold setLastOne at hx
  match l, hx with
  | y :: rest, hx =>
      rcases List.mem_append.mp hx with h | h
      · exact Or.inl ((List.dropLast_sublist (y :: rest)).mem h)
      · simp only [List.mem_singleton] at h
        exact Or.inr h

theorem setLastOne_sum_of_zeros (l : List ℚ) (h : l ≠ [])
    (h0 : ∀ x ∈ l, x = 0) : (setLastOne l).sum = 1 := by
  unfold setLastOne
  match l, h with
  | x :: rest, _ =>
      rw [List.sum_append]
      have : ((x :: rest).dropLast).sum = 0 :=
        List.sum_eq_zero (fun y hy => h0 y ((List.dropLast_sublist (x :: rest)).mem hy))
      simp [this]

theorem headD_mem {α : Type} (l : List α) (d : α) (h : l ≠ []) :
    l.headD d ∈ l := by
  cases l with
  | nil => exact absurd rfl h
  | cons a t => simp

theorem getLastD_mem {α : Type} (l : List α) (d : α) (h : l ≠ []) :
    l.getLastD d ∈ l := by
  cases l with
  | nil => exact absurd rfl h
  | cons a t =>
      rw [List.getLastD_eq_getLast?, List.getLast?_eq_getLast _ h]
      exact List.getLast_mem h

/-- The per-channel aggregation loop of the shapley model (credit at each
position added into its channel's entry) yields a credit map with
non-negative values summing to the sum of the per-position values. -/
theorem credit_map_ok (pt : List String) (vals : List ℚ)
    (hlen : vals.length = pt.length) (hv : ∀ x ∈ vals, 0 ≤ x) :
    (∀ x ∈ alValues
        ((pt.zip vals).foldl (fun m p => alSet m p.1 (p.2 + (alGet m p.1).getD 0)) []),
      0 ≤ x) ∧
    sumValues
        ((pt.zip vals).foldl (fun m p => alSet m p.1 (p.2 + (alGet m p.1).getD 0)) [])
      = vals.sum := by
  have hsnd : (pt.zip vals).map Prod.snd = vals :=
    List.map_snd_zip pt vals (le_of_eq hlen)
  constructor
  · apply values_creditFold_nonneg
    · simp [alValues]
    · intro p hp
      apply hv
      rw [← hsnd]
      exact List.mem_map_of_mem Prod.snd hp
  · rw [sumValues_creditFold, hsnd]
    simp [sumValues, alValues]

theorem shapleyUpdate_entry (store : PathStore) (pt : List String)
    (ps : PathSummary) (hpt : pt ≠ []) (hc : ps.conversions ≠ 0) :
    (∀ x ∈ alValues (shapleyUpdate store (pt, ps)).2.channel_to_attribution, 0 ≤ x) ∧
    sumValues (shapleyUpdate store (pt, ps)).2.channel_to_attribution = 1 := by
  have hcond : ¬(pt = [] ∨ ps.conversions = 0) := by
    intro h
    rcases h with h | h
    · exact hpt h
    · exact hc h
  have hmcnn := mc_nonneg store pt
  have hmclen := mc_length store pt hpt
  set mc := get_counterfactual_marginal_contributions store pt with hmcdef
  by_cases hs : mc.sum = 0
  · have hmcne : mc ≠ [] := by
      intro hnil
      rw [hnil] at hmclen
      exact hpt (List.length_eq_zero.mp hmclen.symm)
    have hzero : ∀ x ∈ mc, x = 0 := eq_zero_of_sum_eq_zero mc hs hmcnn
    have hgoal := credit_map_ok pt (setLastOne mc)
      (by rw [setLastOne_length mc hmcne, hmclen])
      (by
        intro x hx
        rcases setLastOne_mem mc x hx with h | h
        · exact hmcnn x h
        · rw [h]; norm_num)
    have hsum1 : (setLastOne mc).sum = 1 := setLastOne_sum_of_zeros mc hmcne hzero
    simp only [shapleyUpdate, hcond, if_false, ← hmcdef, if_neg (not_not.mpr hs),
      if_pos hs]
    exact ⟨hgoal.1, by rw [hgoal.2, hsum1]⟩
  · have hspos : 0 < mc.sum :=
      lt_of_le_of_ne (List.sum_nonneg hmcnn) (Ne.symm hs)
    have hgoal := credit_map_ok pt (mc.map (· / mc.sum))
      (by rw [List.length_map, hmclen])
      (by
        intro x hx
        simp only [List.mem_map] at hx
        obtain ⟨y, hy, rfl⟩ := hx
        exact div_nonneg (hmcnn y hy) (le_of_lt hspos))
    have hsum1 : (mc.map (· / mc.sum)).sum = 1 := by
      rw [list_sum_map_div, div_self hs]
    simp only [shapleyUpdate, hcond, if_false, ← hmcdef, if_pos hs, if_neg hs]
    exact ⟨hgoal.1, by rw [hgoal.2, hsum1]⟩

/-- Shared core of the first/last-touch entry proofs: zero every channel,
then set the credited channel (known to be on the path) to 1. -/
theorem zeroThenOne_entry (pt : List String) (edge : String) (hedge : edge ∈ pt) :
    (∀ x ∈ alValues
        (alSet (pt.foldl (fun m channel => alSet m channel (0 : ℚ)) []) edge 1), 0 ≤ x) ∧
    sumValues (alSet (pt.foldl (fun m channel => alSet m channel (0 : ℚ)) []) edge 1) = 1 := by
  set m := pt.foldl (fun m channel => alSet m channel (0 : ℚ)) [] with hm
  have hzero : ∀ x ∈ alValues m, x = 0 :=
    values_zeroFold_eq_zero pt [] (by simp [alValues])
  have hsome : (alGet m edge).isSome :=
    alGet_zeroFold_isSome pt [] edge (Or.inl hedge)
  obtain ⟨w, hw⟩ := Option.isSome_iff_exists.mp hsome
  have hw0 : w = 0 := hzero w (alGet_mem_values m edge w hw)
  constructor
  · intro x hx
    rcases mem_values_alSet m edge 1 x hx with h | h
    · rw [hzero x h]
    · rw [h]; norm_num
  · rw [sumValues_alSet_some m edge 1 w hw, sumValues_eq_zero m hzero, hw0]
    norm_num

theorem firstTouchUpdate_entry (pt : List String) (ps : PathSummary)
    (hpt : pt ≠ []) :
    (∀ x ∈ alValues (firstTouchUpdate (pt, ps)).2.channel_to_attribution, 0 ≤ x) ∧
    sumValues (firstTouchUpdate (pt, ps)).2.channel_to_attribution = 1 := by
  have h := zeroThenOne_entry pt (pt.headD "") (headD_mem pt "" hpt)
  simpa only [firstTouchUpdate, if_neg hpt] using h

theorem lastTouchUpdate_entry (pt : List String) (ps : PathSummary)
    (hpt : pt ≠ []) :
    (∀ x ∈ alValues (lastTouchUpdate (pt, ps)).2.channel_to_attribution, 0 ≤ x) ∧
    sumValues (lastTouchUpdate (pt, ps)).2.channel_to_attribution = 1 := by
  have h := zeroThenOne_entry pt (pt.getLastD "") (getLastD_mem pt "" hpt)
  simpa only [lastTouchUpdate, if_neg hpt] using h

theorem linearUpdate_entry (pt : List String) (ps : PathSummary)
    (hpt : pt ≠ []) :
    (∀ x ∈ alValues (linearUpdate (pt, ps)).2.channel_to_attribution, 0 ≤ x) ∧
    sumValues (linearUpdate (pt, ps)).2.channel_to_attribution = 1 := by
  have hn : (pt.length : ℚ) ≠ 0 := by
    simp [List.length_eq_zero, hpt]
  have hcr : (0 : ℚ) ≤ 1 / (pt.length : ℚ) := by positivity
  simp only [linearUpdate, if_neg hpt]
  constructor
  · exact values_constFold_nonneg pt [] _ (by simp [alValues]) hcr
  · rw [sumValues_constFold]
    simp only [sumValues, alValues, List.map_nil, List.sum_nil, zero_add]
    field_simp

/-- The base credit map of the position-based model (first position 0.4,
last position +0.4) has non-negative values. -/
theorem pos_base_nonneg (h0 l : String) :
    ∀ x ∈ alValues
      (alSet (alSet ([] : List (String × ℚ)) h0 (2/5)) l
        ((alGet (alSet ([] : List (String × ℚ)) h0 (2/5)) l).getD 0 + 2/5)),
      0 ≤ x := by
  intro x hx
  rcases mem_values_alSet _ _ _ _ hx with h | h
  · rcases mem_values_alSet _ _ _ _ h with h' | h'
    · simp [alValues] at h'
    · rw [h']; norm_num
  · rw [h]
    have : 0 ≤ (alGet (alSet ([] : List (String × ℚ)) h0 (2/5)) l).getD 0 := by
      apply getD_nonneg_of_values_nonneg
      intro y hy
      rcases mem_values_alSet _ _ _ _ hy with h' | h'
      · simp [alValues] at h'
      · rw [h']; norm_num
    linarith

/-- The base credit map of the position-based model sums to 0.8 = 4/5. -/
theorem pos_base_sum (h0 l : String) :
    sumValues
      (alSet (alSet ([] : List (String × ℚ)) h0 (2/5)) l
        ((alGet (alSet ([] : List (String × ℚ)) h0 (2/5)) l).getD 0 + 2/5)) = 4/5 := by
  rw [sumValues_credit_right]
  simp [alSet, sumValues, alValues]
  norm_num

theorem positionBasedUpdate_entry (pt : List String) (ps : PathSummary)
    (hpt : pt ≠ []) :
    (∀ x ∈ alValues (positionBasedUpdate (pt, ps)).2.channel_to_attribution, 0 ≤ x) ∧
    sumValues (positionBasedUpdate (pt, ps)).2.channel_to_attribution = 1 := by
  have hlen1 : 1 ≤ pt.length := List.length_pos.mpr hpt
  simp only [positionBasedUpdate]
  rw [if_neg hpt]
  simp only
  by_cases hn1 : pt.length = 1
  · rw [if_pos hn1]
    simp only
    constructor
    · exact values_constFold_nonneg pt _ _ (pos_base_nonneg _ _) (by norm_num)
    · rw [sumValues_constFold, pos_base_sum, hn1]
      norm_num
  · by_cases hn2 : pt.length = 2
    · rw [if_neg hn1, if_pos hn2]
      simp only
      constructor
      · exact values_constFold_nonneg pt _ _ (pos_base_nonneg _ _) (by norm_num)
      · rw [sumValues_constFold, pos_base_sum, hn2]
        norm_num
    · rw [if_neg hn1, if_neg hn2]
      simp only
      have hge3 : 3 ≤ pt.length := by omega
      have hq : (0 : ℚ) < (pt.length : ℚ) - 2 := by
        have : (3 : ℚ) ≤ (pt.length : ℚ) := by exact_mod_cast hge3
        linarith
      constructor
      · exact values_constFold_nonneg _ _ _ (pos_base_nonneg _ _)
          (by positivity)
      · rw [sumValues_constFold, pos_base_sum]
        have hmidlen : ((pt.drop 1).dropLast).length = pt.length - 2 := by
          rw [List.length_dropLast, List.length_drop]
          omega
        rw [hmidlen]
        have hcast : (((pt.length - 2 : ℕ)) : ℚ) = (pt.length : ℚ) - 2 := by
          have : 2 ≤ pt.length := by omega
          push_cast [Nat.cast_sub this]
          ring
        rw [hcast]
        field_simp
        ring

theorem shapleyUpdate_fst_conversions (store : PathStore)
    (e : List String × PathSummary) :
    (shapleyUpdate store e).1 = e.1 ∧
    (shapleyUpdate store e).2.conversions = e.2.conversions := by
  obtain ⟨pt, ps⟩ := e
  by_cases h : pt = [] ∨ ps.conversions = 0
  · simp [shapleyUpdate, h]
  · simp [shapleyUpdate, h]

theorem firstTouchUpdate_fst_conversions (e : List String × PathSummary) :
    (firstTouchUpdate e).1 = e.1 ∧
    (firstTouchUpdate e).2.conversions = e.2.conversions := by
  obtain ⟨pt, ps⟩ := e
  by_cases h : pt = []
  · simp [firstTouchUpdate, h]
  · simp [firstTouchUpdate, h]

theorem lastTouchUpdate_fst_conversions (e : List String × PathSummary) :
    (lastTouchUpdate e).1 = e.1 ∧
    (lastTouchUpdate e).2.conversions = e.2.conversions := by
  obtain ⟨pt, ps⟩ := e
  by_cases h : pt = []
  · simp [lastTouchUpdate, h]
  · simp [lastTouchUpdate, h]

theorem linearUpdate_fst_conversions (e : List String × PathSummary) :
    (linearUpdate e).1 = e.1 ∧
    (linearUpdate e).2.conversions = e.2.conversions := by
  obtain ⟨pt, ps⟩ := e
  by_cases h : pt = []
  · simp [linearUpdate, h]
  · simp [linearUpdate, h]

theorem positionBasedUpdate_fst_conversions (e : List String × PathSummary) :
    (positionBasedUpdate e).1 = e.1 ∧
    (positionBasedUpdate e).2.conversions = e.2.conversions := by
  obtain ⟨pt, ps⟩ := e
  by_cases h : pt = []
  · simp [positionBasedUpdate, h]
  · simp [positionBasedUpdate, h]

/-- C1: For every path in the Path Summary Store with `total_conversions > 0`
and a non-empty path tuple, after running any one of the five attribution
models (shapley, first_touch, last_touch, linear, position_based), the values
of that path's `channel_to_attribution` map are non-negative and their sum
equals 1 (exactly, in rational arithmetic). -/
theorem c1_attribution_nonneg_sums_to_one
    (model : AttributionModel) (store : PathStore)
    (pt : List String) (ps' : PathSummary)
    (hmem : (pt, ps') ∈ run_fractribution model store)
    (hpt : pt ≠ []) (hconv : 0 < ps'.conversions) :
    (∀ x ∈ alValues ps'.channel_to_attribution, 0 ≤ x) ∧
    sumValues ps'.channel_to_attribution = 1 := by
  cases model with
  | shapley =>
      simp only [run_fractribution, run_shapley_attribution] at hmem
      obtain ⟨⟨pt0, ps0⟩, he, heq⟩ := List.mem_map.mp hmem
      have hfc := shapleyUpdate_fst_conversions store (pt0, ps0)
      rw [heq] at hfc
      have h1 : pt = pt0 := hfc.1
      have h2 : ps'.conversions = ps0.conversions := hfc.2
      have hpt0 : pt0 ≠ [] := h1 ▸ hpt
      have hc0 : ps0.conversions ≠ 0 := by
        rw [← h2]
        exact Nat.pos_iff_ne_zero.mp hconv
      have hmain := shapleyUpdate_entry store pt0 ps0 hpt0 hc0
      rw [heq] at hmain
      exact hmain
  | first_touch =>
      simp only [run_fractribution, run_first_touch_attribution] at hmem
      obtain ⟨⟨pt0, ps0⟩, he, heq⟩ := List.mem_map.mp hmem
      have hfc := firstTouchUpdate_fst_conversions (pt0, ps0)
      rw [heq] at hfc
      have h1 : pt = pt0 := hfc.1
      have hpt0 : pt0 ≠ [] := h1 ▸ hpt
      have hmain := firstTouchUpdate_entry pt0 ps0 hpt0
      rw [heq] at hmain
      exact hmain
  | last_touch =>
      simp only [run_fractribution, run_last_touch_attribution] at hmem
      obtain ⟨⟨pt0, ps0⟩, he, heq⟩ := List.mem_map.mp hmem
      have hfc := lastTouchUpdate_fst_conversions (pt0, ps0)
      rw [heq] at hfc
      have h1 : pt = pt0 := hfc.1
      have hpt0 : pt0 ≠ [] := h1 ▸ hpt
      have hmain := lastTouchUpdate_entry pt0 ps0 hpt0
      rw [heq] at hmain
      exact hmain
  | linear =>
      simp only [run_fractribution, run_linear_attribution] at hmem
      obtain ⟨⟨pt0, ps0⟩, he, heq⟩ := List.mem_map.mp hmem
      have hfc := linearUpdate_fst_conversions (pt0, ps0)
      rw [heq] at hfc
      have h1 : pt = pt0 := hfc.1
      have hpt0 : pt0 ≠ [] := h1 ▸ hpt
      have hmain := linearUpdate_entry pt0 ps0 hpt0
      rw [heq] at hmain
      exact hmain
  | position_based =>
      simp only [run_fractribution, run_position_based_attribution] at hmem
      obtain ⟨⟨pt0, ps0⟩, he, heq⟩ := List.mem_map.mp hmem
      have hfc := positionBasedUpdate_fst_conversions (pt0, ps0)
      rw [heq] at hfc
      have h1 : pt = pt0 := hfc.1
      have hpt0 : pt0 ≠ [] := h1 ▸ hpt
      have hmain := positionBasedUpdate_entry pt0 ps0 hpt0
      rw [heq] at hmain
      exact hmain

/-- Witness for C1: the linear model on the single stored path (X, Y) with
one conversion yields the credit map X = 1/2, Y = 1/2, non-negative and
summing to 1. -/
theorem c1_attribution_nonneg_sums_to_one_witness :
    (∀ x ∈ alValues
      (PathSummary.channel_to_attribution
        ⟨1, 0, 0, [("X", (1 : ℚ)/2), ("Y", (1 : ℚ)/2)]⟩), 0 ≤ x) ∧
    sumValues
      (PathSummary.channel_to_attribution
        ⟨1, 0, 0, [("X", (1 : ℚ)/2), ("Y", (1 : ℚ)/2)]⟩) = 1 :=
  c1_attribution_nonneg_sums_to_one AttributionModel.linear
    [(["X", "Y"], ⟨1, 0, 0, []⟩)]
    ["X", "Y"] ⟨1, 0, 0, [("X", (1 : ℚ)/2), ("Y", (1 : ℚ)/2)]⟩
    (by
      have h : run_fractribution AttributionModel.linear
          [(["X", "Y"], ⟨1, 0, 0, []⟩)] =
          [(["X", "Y"], ⟨1, 0, 0, [("X", (1 : ℚ)/2), ("Y", (1 : ℚ)/2)]⟩)] := by
        simp [run_fractribution, run_linear_attribution, linearUpdate, alSet, alGet]
      rw [h]
      exact List.mem_singleton.mpr rfl)
    (by decide) (by decide)

/-- Whatever the current dict is, a Python dict assignment leaves it
non-empty. -/
theorem alSet_ne_nil {α β : Type} [DecidableEq α]
    (m : List (α × β)) (k : α) (v : β) : alSet m k v ≠ [] := by
  cases m with
  | nil => simp [alSet]
  | cons hd t =>
      obtain ⟨k0, v0⟩ := hd
      by_cases h : k0 = k
      · simp [alSet, h]
      · simp [alSet, h]

/-- A fold of dict assignments starting from a non-empty dict, or over a
non-empty channel list, leaves a non-empty dict. -/
theorem foldl_alSet_ne_nil {α β : Type} [DecidableEq α]
    (step : List (α × β) → α → β) (l : List α) (m0 : List (α × β))
    (h : l ≠ [] ∨ m0 ≠ []) :
    l.foldl (fun m c => alSet m c (step m c)) m0 ≠ [] := by
  induction l generalizing m0 with
  | nil =>
      rcases h with h | h
      · exact absurd rfl h
      · simpa using h
  | cons c rest ih =>
      simp only [List.foldl_cons]
      exact ih _ (Or.inr (alSet_ne_nil _ _ _))

/-- C2 counterexample: on the store holding the single path ("A") with 0
conversions and 1 non-conversion, the last-touch model does not leave the
credit map empty (it assigns A ↦ 1), refuting the claim that every model
leaves the credit map of a zero-conversion path empty. -/
theorem c2_counterexample_zero_conversions :
    ¬ (∀ e ∈ run_fractribution AttributionModel.last_touch
          [(["A"], (⟨0, 1, 0, []⟩ : PathSummary))],
        e.2.conversions = 0 → e.2.channel_to_attribution = []) := by
  intro h
  have hm : run_fractribution AttributionModel.last_touch
      [(["A"], (⟨0, 1, 0, []⟩ : PathSummary))]
      = [(["A"], ⟨0, 1, 0, [("A", 1)]⟩)] := by
    simp [run_fractribution, run_last_touch_attribution, lastTouchUpdate,
      alSet, alGet]
  rw [hm] at h
  have := h (["A"], ⟨0, 1, 0, [("A", 1)]⟩) (List.mem_singleton.mpr rfl) rfl
  simp at this

/-- C2 amended: the shapley model mutates `channel_to_attribution` only for
paths with `total_conversions > 0` and a non-empty path tuple, returning
every other entry unchanged; the other four models reset every path's
credit map and then assign a non-empty credit map to every path with a
non-empty tuple regardless of its conversion count, leaving exactly the
empty-tuple paths with an empty credit map. -/
theorem c2_amended_frame :
    (∀ (store : PathStore) (e : List String × PathSummary),
        e.1 = [] ∨ e.2.conversions = 0 → shapleyUpdate store e = e) ∧
    (∀ e : List String × PathSummary, e.1 = [] →
        (firstTouchUpdate e).2.channel_to_attribution = [] ∧
        (lastTouchUpdate e).2.channel_to_attribution = [] ∧
        (linearUpdate e).2.channel_to_attribution = [] ∧
        (positionBasedUpdate e).2.channel_to_attribution = []) ∧
    (∀ e : List String × PathSummary, e.1 ≠ [] →
        (firstTouchUpdate e).2.channel_to_attribution ≠ [] ∧
        (lastTouchUpdate e).2.channel_to_attribution ≠ [] ∧
        (linearUpdate e).2.channel_to_attribution ≠ [] ∧
        (positionBasedUpdate e).2.channel_to_attribution ≠ []) := by
  refine ⟨?_, ?_, ?_⟩
  · intro store e h
    obtain ⟨pt, ps⟩ := e
    simp only at h
    simp [shapleyUpdate, h]
  · intro e h
    obtain ⟨pt, ps⟩ := e
    simp only at h
    subst h
    simp [firstTouchUpdate, lastTouchUpdate, linearUpdate, positionBasedUpdate]
  · intro e h
    obtain ⟨pt, ps⟩ := e
    simp only at h
    refine ⟨?_, ?_, ?_, ?_⟩
    · simp only [firstTouchUpdate, if_neg h]
      exact alSet_ne_nil _ _ _
    · simp only [lastTouchUpdate, if_neg h]
      exact alSet_ne_nil _ _ _
    · simp only [linearUpdate, if_neg h]
      exact foldl_alSet_ne_nil
        (fun m c => (alGet m c).getD 0 + 1 / (pt.length : ℚ)) pt [] (Or.inl h)
    · simp only [positionBasedUpdate, if_neg h]
      apply foldl_alSet_ne_nil
      right
      exact alSet_ne_nil _ _ _

/-- Witness for C2 amended: shapley leaves the zero-conversion path ("A")
untouched; first-touch gives the empty path an empty credit map; last-touch
gives the non-empty path ("A") a non-empty credit map. -/
theorem c2_amended_frame_witness :
    shapleyUpdate [] (["A"], (⟨0, 1, 0, []⟩ : PathSummary))
      = (["A"], (⟨0, 1, 0, []⟩ : PathSummary)) ∧
    (firstTouchUpdate ([], (⟨1, 0, 0, []⟩ : PathSummary))).2.channel_to_attribution
      = [] ∧
    (lastTouchUpdate (["A"], (⟨0, 1, 0, []⟩ : PathSummary))).2.channel_to_attribution
      ≠ [] :=
  ⟨c2_amended_frame.1 [] (["A"], ⟨0, 1, 0, []⟩) (Or.inr rfl),
   (c2_amended_frame.2.1 ([], ⟨1, 0, 0, []⟩) rfl).1,
   (c2_amended_frame.2.2 (["A"], ⟨0, 1, 0, []⟩) (by simp)).2.1⟩

/-- The concrete store of the C3 scenario: ("A","B") with 10 conversions
and 5 non-conversions, ("B") with 4 and 1, ("A") with 6 and 2. -/
def c3Store : PathStore :=
  [(["A", "B"], ⟨10, 5, 0, []⟩), (["B"], ⟨4, 1, 0, []⟩), (["A"], ⟨6, 2, 0, []⟩)]

/-- C3: On the C3 store, the counterfactual (shapley) model assigns path
("A","B") the credit map A ↦ 0, B ↦ 1: both raw marginal contributions
max(0, 2/3 − 4/5) and max(0, 2/3 − 3/4) are floored to 0, their sum is 0,
and the last-touch fallback credits the final position B with 1. -/
theorem c3_shapley_last_touch_fallback :
    (alGet (run_fractribution AttributionModel.shapley c3Store)
        ["A", "B"]).map PathSummary.channel_to_attribution
      = some [("A", 0), ("B", 1)] := by
  have hp : get_conversion_probability c3Store ["A", "B"] = 2/3 := by
    have h : alGet c3Store ["A", "B"] = some ⟨10, 5, 0, []⟩ := by
      simp [c3Store, alGet]
    rw [get_conversion_probability, h]
    norm_num
  have hpB : get_conversion_probability c3Store ["B"] = 4/5 := by
    have h : alGet c3Store ["B"] = some ⟨4, 1, 0, []⟩ := by
      simp [c3Store, alGet]
    rw [get_conversion_probability, h]
    norm_num
  have hpA : get_conversion_probability c3Store ["A"] = 3/4 := by
    have h : alGet c3Store ["A"] = some ⟨6, 2, 0, []⟩ := by
      simp [c3Store, alGet]
    rw [get_conversion_probability, h]
    norm_num
  have hmc : get_counterfactual_marginal_contributions c3Store ["A", "B"]
      = [0, 0] := by
    simp only [get_counterfactual_marginal_contributions]
    rw [if_neg (by simp), if_neg (by simp)]
    rw [show List.range (["A", "B"].length) = [0, 1] from rfl]
    simp only [List.map_cons, List.map_nil, List.eraseIdx]
    rw [hp, hpA, hpB]
    rw [max_eq_right (by norm_num), max_eq_right (by norm_num)]
  have hupd : shapleyUpdate c3Store (["A", "B"], ⟨10, 5, 0, []⟩)
      = (["A", "B"], ⟨10, 5, 0, [("A", 0), ("B", 1)]⟩) := by
    simp only [shapleyUpdate]
    rw [if_neg (by simp)]
    simp only [hmc]
    simp [setLastOne, alSet, alGet]
  have hrun : run_fractribution AttributionModel.shapley c3Store
      = shapleyUpdate c3Store (["A", "B"], ⟨10, 5, 0, []⟩) ::
        List.map (shapleyUpdate c3Store)
          [(["B"], ⟨4, 1, 0, []⟩), (["A"], ⟨6, 2, 0, []⟩)] := rfl
  rw [hrun, hupd]
  simp [alGet]

/-- C4 counterexample: the frequency transform applied to
(D,A,B,B,C,D,C,C) does not return (D(1),A(1),B(2),C(3)): D occurs twice in
the input, so its token is D(2), not D(1). -/
theorem c4_counterexample_frequency_d1 :
    frequency_transform ["D", "A", "B", "B", "C", "D", "C", "C"]
      ≠ Except.ok ["D(1)", "A(1)", "B(2)", "C(3)"] := by
  intro h
  rw [show frequency_transform ["D", "A", "B", "B", "C", "D", "C", "C"]
      = Except.ok ["D(2)", "A(1)", "B(2)", "C(3)"] from rfl] at h
  simp at h

/-- C4 amended: the frequency transform applied to (D,A,B,B,C,D,C,C)
returns (D(2),A(1),B(2),C(3)): one token per distinct channel in first-seen
order, each suffixed with its total occurrence count in parentheses. -/
theorem c4_frequency_concrete :
    frequency_transform ["D", "A", "B", "B", "C", "D", "C", "C"]
      = Except.ok ["D(2)", "A(1)", "B(2)", "C(3)"] := rfl

/-- The count-and-validate loop of the frequency transform raises if and
only if some event contains a parenthesis. -/
theorem countEvents_error_iff (t : List String) :
    ∀ m : List (String × Nat),
      ((∃ e ∈ t, hasParen e = true) ↔ ∃ msg, countEvents t m = Except.error msg) := by
  induction t with
  | nil =>
      intro m
      constructor
      · rintro ⟨e, he, _⟩
        simp at he
      · rintro ⟨msg, hmsg⟩
        simp [countEvents] at hmsg
  | cons e rest ih =>
      intro m
      by_cases hp : hasParen e = true
      · constructor
        · intro _
          exact ⟨"Frequency transform forbids event names with parens. " ++
              "See event: " ++ e, by simp [countEvents, hp]⟩
        · intro _
          exact ⟨e, List.mem_cons_self e rest, hp⟩
      · constructor
        · rintro ⟨e', he', hpe'⟩
          rcases List.mem_cons.mp he' with h | h
          · subst h
            exact absurd hpe' hp
          · obtain ⟨msg, hmsg⟩ := (ih _).mp ⟨e', h, hpe'⟩
            refine ⟨msg, ?_⟩
            simpa [countEvents, hp] using hmsg
        · rintro ⟨msg, hmsg⟩
          simp only [countEvents, hp, Bool.false_eq_true, if_false] at hmsg
          obtain ⟨e', he', hpe'⟩ := (ih _).mpr ⟨msg, hmsg⟩
          exact ⟨e', List.mem_cons_of_mem e he', hpe'⟩

/-- C7: the frequency transform raises a ValueError if and only if some
element of the input tuple contains a parenthesis character; on any input
free of parentheses it returns normally. -/
theorem c7_frequency_paren_validation (t : List String) :
    ((∃ e ∈ t, hasParen e = true) →
      ∃ msg, frequency_transform t = Except.error msg) ∧
    ((∀ e ∈ t, hasParen e = false) →
      ∃ result, frequency_transform t = Except.ok result) := by
  constructor
  · intro h
    obtain ⟨msg, hmsg⟩ := (countEvents_error_iff t []).mp h
    exact ⟨msg, by simp [frequency_transform, hmsg]⟩
  · intro h
    cases hce : countEvents t [] with
    | error msg =>
        obtain ⟨e, he, hpe⟩ := (countEvents_error_iff t []).mpr ⟨msg, hce⟩
        rw [h e he] at hpe
        exact absurd hpe (by simp)
    | ok counts =>
        exact ⟨freqCollapse t counts, by simp [frequency_transform, hce]⟩

/-- Witness for C7: an event containing "(" makes the transform raise;
the paren-free input ["a"] returns normally. -/
theorem c7_frequency_paren_validation_witness :
    (∃ msg, frequency_transform ["a("] = Except.error msg) ∧
    (∃ result, frequency_transform ["a"] = Except.ok result) :=
  ⟨(c7_frequency_paren_validation ["a("]).1
      ⟨"a(", List.mem_singleton.mpr rfl, by decide⟩,
   (c7_frequency_paren_validation ["a"]).2
      (by
        intro e he
        rw [List.mem_singleton.mp he]
        decide)⟩

/-! ### C8: construct_report_table_row -/

/-- The row-building loop of `construct_report_table_row` accumulates the
per-channel attribution columns and their running sum. -/
theorem row_fold_spec {α : Type} (val : α → ℚ) (channels : List α) :
    ∀ acc : List ℚ × ℚ,
      channels.foldl (fun acc c => (acc.1 ++ [val c], acc.2 + val c)) acc
        = (acc.1 ++ channels.map val, acc.2 + (channels.map val).sum) := by
  induction channels with
  | nil => intro acc; simp
  | cons c rest ih =>
      intro acc
      simp only [List.foldl_cons, ih, List.map_cons, List.sum_cons]
      simp
      ring

/-- C8: `construct_report_table_row` raises a ValueError whenever the credit
map contains a channel not present in the caller-supplied channel list;
otherwise it returns the row whose trailing `total_attribution` value is the
sum over the channel list of that channel's credit (0 for channels absent
from the credit map). -/
theorem c8_report_row_total_and_schema
    (rws rwe path_string customer_id : String) (edt : Int)
    (channels : List String) (event_to_attribution : List (String × ℚ)) :
    ((∃ p ∈ event_to_attribution, p.1 ∉ channels) →
      construct_report_table_row rws rwe path_string customer_id edt
          channels event_to_attribution
        = Except.error "Missing channel from channel list.") ∧
    ((∀ p ∈ event_to_attribution, p.1 ∈ channels) →
      construct_report_table_row rws rwe path_string customer_id edt
          channels event_to_attribution
        = Except.ok (rws, rwe, path_string, customer_id, edt,
            channels.map (fun c => (alGet event_to_attribution c).getD 0),
            (channels.map (fun c => (alGet event_to_attribution c).getD 0)).sum)) := by
  have hany : (event_to_attribution.any (fun p => decide (p.1 ∉ channels)) = true)
      ↔ ∃ p ∈ event_to_attribution, p.1 ∉ channels := by
    rw [List.any_eq_true]
    constructor
    · rintro ⟨p, hp, hd⟩
      exact ⟨p, hp, of_decide_eq_true hd⟩
    · rintro ⟨p, hp, hd⟩
      exact ⟨p, hp, decide_eq_true hd⟩
  constructor
  · intro h
    simp only [construct_report_table_row, hany.mpr h, if_true]
  · intro h
    have hnone : ¬ (event_to_attribution.any (fun p => decide (p.1 ∉ channels)) = true) := by
      rw [hany]
      rintro ⟨p, hp, hd⟩
      exact hd (h p hp)
    simp only [construct_report_table_row,
      row_fold_spec (fun c => (alGet event_to_attribution c).getD 0) channels ([], 0)]
    rw [if_neg hnone]
    simp

/-- Witness for C8: with channels (A, B) and credit map {B ↦ 1}, the row is
returned with columns (0, 1) and trailing total 1; adding a credit for the
unknown channel Z makes the call fail. -/
theorem c8_report_row_total_and_schema_witness :
    construct_report_table_row "s" "e" "p" "c" 3 ["A", "B"] [("B", 1)]
      = Except.ok ("s", "e", "p", "c", 3,
          ["A", "B"].map (fun c => (alGet [("B", (1 : ℚ))] c).getD 0),
          (["A", "B"].map (fun c => (alGet [("B", (1 : ℚ))] c).getD 0)).sum) ∧
    construct_report_table_row "s" "e" "p" "c" 3 ["A", "B"] [("Z", 1)]
      = Except.error "Missing channel from channel list." :=
  ⟨(c8_report_row_total_and_schema "s" "e" "p" "c" 3 ["A", "B"] [("B", 1)]).2
      (by
        intro p hp
        rw [List.mem_singleton.mp hp]
        decide),
   (c8_report_row_total_and_schema "s" "e" "p" "c" 3 ["A", "B"] [("Z", 1)]).1
      ⟨("Z", 1), List.mem_singleton.mpr rfl, by decide⟩⟩

/-! ### C10: duplicate-key merge in Fractribution.__init__ -/

/-- C10: when a record collapses to an already-present key during store
construction, its conversions and non-conversions are added to the existing
entry, but its revenue is not summed (the stored revenue and the credit map
stay those of the existing entry), and every other key is untouched. -/
theorem c10_merge_keeps_first_revenue
    (store : PathStore) (path_str : String) (conversions non_conversions : Nat)
    (revenue : ℚ) (ps : PathSummary)
    (h : alGet store (initPathTuple path_str) = some ps) :
    alGet (initStep store (path_str, conversions, non_conversions, revenue))
        (initPathTuple path_str)
      = some ⟨ps.conversions + conversions, ps.non_conversions + non_conversions,
              ps.revenue, ps.channel_to_attribution⟩ ∧
    ∀ pt' : List String, pt' ≠ initPathTuple path_str →
      alGet (initStep store (path_str, conversions, non_conversions, revenue)) pt'
        = alGet store pt' := by
  constructor
  · simp only [initStep, h]
    exact alGet_alSet_self store (initPathTuple path_str) _
  · intro pt' hne
    simp only [initStep, h]
    exact alGet_alSet_ne store (initPathTuple path_str) pt' _ hne

/-- Witness for C10: folding ("A > B", 1, 2, 99) into the store built from
("A > B", 10, 5, 7) yields 11 conversions, 7 non-conversions, and the
first record's revenue 7; the unrelated key ("Z") stays absent. -/
theorem c10_merge_keeps_first_revenue_witness :
    alGet (initStep (buildStore [("A > B", 10, 5, 7)]) ("A > B", 1, 2, 99))
        (initPathTuple "A > B")
      = some ⟨11, 7, 7, []⟩ ∧
    alGet (initStep (buildStore [("A > B", 10, 5, 7)]) ("A > B", 1, 2, 99)) ["Z"]
      = alGet (buildStore [("A > B", 10, 5, 7)]) ["Z"] := by
  have h : alGet (buildStore [("A > B", 10, 5, 7)]) (initPathTuple "A > B")
      = some ⟨10, 5, 7, []⟩ := by
    simp [buildStore, initStep, initPathTuple, splitOnSep, splitPath, alGet]
  have hmain := c10_merge_keeps_first_revenue
    (buildStore [("A > B", 10, 5, 7)]) "A > B" 1 2 99 ⟨10, 5, 7, []⟩ h
  exact ⟨hmain.1, hmain.2 ["Z"] (by simp [initPathTuple, splitOnSep, splitPath])⟩

/-! ### C5: the empty path string as a store key -/

theorem alGet_append_of_some {α β : Type} [DecidableEq α]
    (m l : List (α × β)) (k : α) (v : β) (h : alGet m k = some v) :
    alGet (m ++ l) k = some v := by
  induction m with
  | nil => simp [alGet] at h
  | cons hd t ih =>
      obtain ⟨k0, v0⟩ := hd
      by_cases hk : k0 = k
      · simp [alGet, hk] at h ⊢
        exact h
      · simp [alGet, hk] at h ⊢
        exact ih h

theorem alGet_append_self {α β : Type} [DecidableEq α]
    (m : List (α × β)) (k : α) (v : β) (h : alGet m k = none) :
    alGet (m ++ [(k, v)]) k = some v := by
  induction m with
  | nil => simp [alGet]
  | cons hd t ih =>
      obtain ⟨k0, v0⟩ := hd
      by_cases hk : k0 = k
      · simp [alGet, hk] at h
      · simp [alGet, hk] at h ⊢
        exact ih h

/-- Folding a record into the store leaves every existing key present. -/
theorem initStep_preserves_key (store : PathStore) (r : SummaryRecord)
    (k : List String) (h : (alGet store k).isSome) :
    (alGet (initStep store r) k).isSome := by
  obtain ⟨path_str, c, n, rev⟩ := r
  obtain ⟨v, hv⟩ := Option.isSome_iff_exists.mp h
  cases hg : alGet store (initPathTuple path_str) with
  | none =>
      simp only [initStep, hg]
      rw [alGet_append_of_some store _ k v hv]
      rfl
  | some ps =>
      simp only [initStep, hg]
      by_cases hk : k = initPathTuple path_str
      · subst hk
        rw [alGet_alSet_self]
        rfl
      · rw [alGet_alSet_ne store _ k _ hk, hv]
        rfl

/-- Folding a record into the store makes its own key present. -/
theorem initStep_adds_key (store : PathStore) (r : SummaryRecord) :
    (alGet (initStep store r) (initPathTuple r.1)).isSome := by
  obtain ⟨path_str, c, n, rev⟩ := r
  cases hg : alGet store (initPathTuple path_str) with
  | none =>
      simp only [initStep, hg]
      rw [alGet_append_self store _ _ hg]
      rfl
  | some ps =>
      simp only [initStep, hg]
      rw [alGet_alSet_self]
      rfl

theorem foldl_initStep_preserves_key (records : List SummaryRecord)
    (store : PathStore) (k : List String) (h : (alGet store k).isSome) :
    (alGet (records.foldl initStep store) k).isSome := by
  induction records generalizing store with
  | nil => simpa using h
  | cons r rest ih =>
      simp only [List.foldl_cons]
      exact ih _ (initStep_preserves_key store r k h)

/-- C5 counterexample: in `transform_paths` (fractribution_model), a record
whose path string is empty is NOT keyed by the empty tuple: the empty
string splits to the single empty channel name, which gets encoded, so the
store holds one entry and the empty tuple is absent. -/
theorem c5_counterexample_transform_paths_empty_key :
    alGet (transform_paths [("", 1, 0)] unique_transform).1 [] = none ∧
    (transform_paths [("", 1, 0)] unique_transform).1.length = 1 := by
  constructor
  · rfl
  · rfl

/-- Over any initial store, once some record with an empty path string is
folded in, the empty-tuple key is present in the final store. -/
theorem foldl_initStep_empty_key (records : List SummaryRecord) :
    ∀ (store : PathStore) (r : SummaryRecord), r ∈ records → r.1 = "" →
      (alGet (records.foldl initStep store) []).isSome := by
  induction records with
  | nil =>
      intro store r hr
      simp at hr
  | cons a rest ih =>
      intro store r hr hempty
      simp only [List.foldl_cons]
      rcases List.mem_cons.mp hr with h | h
      · subst h
        apply foldl_initStep_preserves_key
        have hadd := initStep_adds_key store r
        rw [hempty] at hadd
        simpa [initPathTuple] using hadd
      · exact ih (initStep store a) r h hempty

/-- C5 amended: in `Fractribution.__init__` (src/py/fractribution.py) a
record with an empty path string is keyed by the empty tuple, and that key
is retained in the store built by folding the records; in
`transform_paths` (fractribution_model) an empty path string is instead
encoded as a one-element tuple (see the counterexample). -/
theorem c5_empty_path_key_retained :
    initPathTuple "" = [] ∧
    ∀ (records : List SummaryRecord) (r : SummaryRecord),
      r ∈ records → r.1 = "" → (alGet (buildStore records) []).isSome := by
  refine ⟨rfl, ?_⟩
  intro records r hr hempty
  unfold buildStore
  exact foldl_initStep_empty_key records [] r hr hempty

/-- Witness for C5 amended: after folding ("A",2,3,0) and ("",1,0,0), the
empty tuple is a key of the store. -/
theorem c5_empty_path_key_retained_witness :
    (alGet (buildStore [("A", 2, 3, 0), ("", 1, 0, 0)]) []).isSome :=
  c5_empty_path_key_retained.2 [("A", 2, 3, 0), ("", 1, 0, 0)]
    ("", 1, 0, 0) (by simp) rfl

/-! ### C6: the Report Joiner's recoverable default cases -/

/-- C6: `get_path_and_event_to_attribution` returns the default
{Unmatched Channel: 1.0} (as a normal result, not an error) whenever the
path string is empty, some raw channel is unknown to the encoder, or the
looked-up path has an empty attribution map. -/
theorem c6_report_joiner_default_cases
    (path_transform : List String → List String)
    (store : List (List String × TuplePath))
    (channel_to_encoding : List (String × String))
    (path_string customer_id : String) :
    (path_string = "" →
      get_path_and_event_to_attribution path_transform store channel_to_encoding
          path_string customer_id
        = Except.ok (path_string, [(UNMATCHED_CHANNEL, 1)])) ∧
    ((∃ channel ∈ splitOnSep path_string, alGet channel_to_encoding channel = none) →
      get_path_and_event_to_attribution path_transform store channel_to_encoding
          path_string customer_id
        = Except.ok (path_string, [(UNMATCHED_CHANNEL, 1)])) ∧
    (∀ path : TuplePath,
      alGet store (path_transform ((splitOnSep path_string).map
          (fun channel => (alGet channel_to_encoding channel).getD ""))) = some path →
      path.event_to_attribution = [] →
      get_path_and_event_to_attribution path_transform store channel_to_encoding
          path_string customer_id
        = Except.ok (path_string, [(UNMATCHED_CHANNEL, 1)])) := by
  by_cases hempty : path_string = ""
  · refine ⟨fun _ => ?_, fun _ => ?_, fun _ _ _ => ?_⟩ <;>
      simp [get_path_and_event_to_attribution, hempty]
  · have hany : ((splitOnSep path_string).any
        (fun channel => (alGet channel_to_encoding channel).isNone) = true)
        ↔ ∃ channel ∈ splitOnSep path_string,
            alGet channel_to_encoding channel = none := by
      rw [List.any_eq_true]
      constructor
      · rintro ⟨c, hc, hn⟩
        exact ⟨c, hc, Option.isNone_iff_eq_none.mp hn⟩
      · rintro ⟨c, hc, hn⟩
        exact ⟨c, hc, Option.isNone_iff_eq_none.mpr hn⟩
    refine ⟨fun h => absurd h hempty, ?_, ?_⟩
    · intro h
      simp only [get_path_and_event_to_attribution, if_neg hempty,
        if_pos (hany.mpr h)]
    · intro path hpath hattr
      by_cases hunseen : (splitOnSep path_string).any
          (fun channel => (alGet channel_to_encoding channel).isNone) = true
      · simp only [get_path_and_event_to_attribution, if_neg hempty,
          if_pos hunseen]
      · simp only [get_path_and_event_to_attribution, if_neg hempty,
          if_neg hunseen, hpath, hattr]
        simp

/-- Witness for C6: the empty path string, an unseen channel ("B"), and a
stored path with an empty attribution map all yield the default credit
map. -/
theorem c6_report_joiner_default_cases_witness :
    get_path_and_event_to_attribution unique_transform [] [] "" "cid"
      = Except.ok ("", [(UNMATCHED_CHANNEL, 1)]) ∧
    get_path_and_event_to_attribution unique_transform [] [] "B" "cid"
      = Except.ok ("B", [(UNMATCHED_CHANNEL, 1)]) ∧
    get_path_and_event_to_attribution unique_transform
        [(["a"], ⟨["a"], 0, 1, []⟩)] [("A", "a")] "A" "cid"
      = Except.ok ("A", [(UNMATCHED_CHANNEL, 1)]) :=
  ⟨(c6_report_joiner_default_cases unique_transform [] [] "" "cid").1 rfl,
   (c6_report_joiner_default_cases unique_transform [] [] "B" "cid").2.1
     ⟨"B", by decide, rfl⟩,
   (c6_report_joiner_default_cases unique_transform
       [(["a"], ⟨["a"], 0, 1, []⟩)] [("A", "a")] "A" "cid").2.2
     ⟨["a"], 0, 1, []⟩ (by decide) rfl⟩

/-! ### C9: the channel encoder never repeats a token, so decode inverts
encode -/

theorem fromBijDigits_append (w : List Nat) (d : Nat) :
    fromBijDigits (w ++ [d]) = fromBijDigits w * 26 + d + 1 := by
  simp [fromBijDigits, List.foldl_append]

theorem fromBij_bijDigitsAux :
    ∀ (fuel m : Nat), m ≤ fuel → fromBijDigits (bijDigitsAux fuel m) = m := by
  intro fuel
  induction fuel with
  | zero =>
      intro m hm
      interval_cases m
      simp [bijDigitsAux, fromBijDigits]
  | succ f ih =>
      intro m hm
      match m with
      | 0 => simp [bijDigitsAux, fromBijDigits]
      | k + 1 =>
          simp only [bijDigitsAux]
          have hdiv : k / 26 ≤ f := by
            have := Nat.div_le_self k 26
            omega
          rw [fromBijDigits_append, ih (k / 26) hdiv]
          have hdm := Nat.div_add_mod k 26
          omega

theorem bijDigitsAux_lt :
    ∀ (fuel m : Nat), ∀ d ∈ bijDigitsAux fuel m, d < 26 := by
  intro fuel
  induction fuel with
  | zero =>
      intro m d hd
      simp [bijDigitsAux] at hd
  | succ f ih =>
      intro m d hd
      match m with
      | 0 => simp [bijDigitsAux] at hd
      | k + 1 =>
          simp only [bijDigitsAux, List.mem_append, List.mem_singleton] at hd
          rcases hd with hd | hd
          · exact ih (k / 26) d hd
          · subst hd
            exact Nat.mod_lt k (by norm_num)

theorem char_toNat_round (d : Nat) (h : d < 26) :
    (Char.ofNat (97 + d)).toNat = 97 + d := by
  interval_cases d <;> decide

theorem list_map_id_of {α : Type} (l : List α) (f : α → α)
    (h : ∀ x ∈ l, f x = x) : l.map f = l := by
  induction l with
  | nil => rfl
  | cons x rest ih =>
      simp only [List.map_cons, h x (List.mem_cons_self x rest)]
      rw [ih (fun y hy => h y (List.mem_cons_of_mem x hy))]

theorem tokenToNat_natToToken (n : Nat) : tokenToNat (natToToken n) = n := by
  unfold tokenToNat natToToken
  rw [show (String.mk ((bijDigits (n + 1)).map (fun d => Char.ofNat (97 + d)))).toList
      = (bijDigits (n + 1)).map (fun d => Char.ofNat (97 + d)) from rfl]
  rw [List.map_map]
  rw [list_map_id_of (bijDigits (n + 1)) _ (fun d hd => by
    have hlt : d < 26 := bijDigitsAux_lt (n + 1) (n + 1) d hd
    simp only [Function.comp_apply]
    rw [char_toNat_round d hlt]
    omega)]
  rw [show fromBijDigits (bijDigits (n + 1)) = n + 1 from
    fromBij_bijDigitsAux (n + 1) (n + 1) le_rfl]
  omega

theorem natToToken_injective : Function.Injective natToToken := by
  intro a b h
  have hc := congrArg tokenToNat h
  rwa [tokenToNat_natToToken, tokenToNat_natToToken] at hc

/-- Invariant of the channel-to-encoding table: its tokens are exactly
`natToToken 0, natToToken 1, ...` in order, i.e. the successive values of
`_create_channel_mapping_iterator`. -/
def encTableGood (enc : List (String × String)) : Prop :=
  enc.map Prod.snd = (List.range enc.length).map natToToken

theorem encodeChannelStep_good (acc : List (String × String) × List String)
    (channel : String) (h : encTableGood acc.1) :
    encTableGood (encodeChannelStep acc channel).1 := by
  unfold encodeChannelStep
  cases hs : (alGet acc.1 channel).isSome with
  | true => simpa [hs] using h
  | false =>
      simp only [hs, Bool.false_eq_true, if_false]
      unfold encTableGood at h ⊢
      simp only [List.map_append, List.map_cons, List.map_nil,
        List.length_append, List.length_cons, List.length_nil, h,
        List.range_succ]

theorem channelsFold_good (channels : List String) :
    ∀ acc : List (String × String) × List String, encTableGood acc.1 →
      encTableGood ((channels.foldl encodeChannelStep acc)).1 := by
  induction channels with
  | nil => intro acc h; simpa using h
  | cons c rest ih =>
      intro acc h
      simp only [List.foldl_cons]
      exact ih _ (encodeChannelStep_good acc c h)

theorem transform_paths_good (records : List (String × Nat × Nat))
    (path_transform : List String → List String) :
    encTableGood (transform_paths records path_transform).2 := by
  suffices hgen : ∀ acc, encTableGood acc.2 →
      encTableGood ((records.foldl (transformPathsStep path_transform) acc)).2 by
    exact hgen ([], []) (by simp [encTableGood])
  induction records with
  | nil => intro acc h; simpa using h
  | cons r rest ih =>
      intro acc h
      simp only [List.foldl_cons]
      apply ih
      obtain ⟨store, enc⟩ := acc
      obtain ⟨path_str, nc, nn⟩ := r
      simp only [transformPathsStep]
      exact channelsFold_good (splitOnSep path_str) (enc, []) h

theorem enc_tokens_nodup (enc : List (String × String)) (h : encTableGood enc) :
    (enc.map Prod.snd).Nodup := by
  rw [h]
  exact (List.nodup_range _).map natToToken_injective

theorem alGet_mem {α β : Type} [DecidableEq α]
    (m : List (α × β)) (k : α) (v : β) (h : alGet m k = some v) : (k, v) ∈ m := by
  induction m with
  | nil => simp [alGet] at h
  | cons hd t ih =>
      obtain ⟨k0, v0⟩ := hd
      by_cases hk : k0 = k
      · subst hk
        simp [alGet] at h
        simp [h]
      · simp [alGet, hk] at h
        exact List.mem_cons_of_mem _ (ih h)

/-- If the table's tokens never repeat, looking a token up in the inverted
table returns the channel it was allocated for. -/
theorem alGet_inverted_of_mem (enc : List (String × String))
    (hnd : (enc.map Prod.snd).Nodup) (c t : String) (hmem : (c, t) ∈ enc) :
    alGet (enc.map (fun p => (p.2, p.1))) t = some c := by
  induction enc with
  | nil => simp at hmem
  | cons hd rest ih =>
      obtain ⟨c0, t0⟩ := hd
      simp only [List.map_cons] at hnd
      have hnd' := List.nodup_cons.mp hnd
      rcases List.mem_cons.mp hmem with h | h
      · injection h with h1 h2
        subst h1
        subst h2
        simp [alGet]
      · have ht : t ∈ rest.map Prod.snd := by
          have := List.mem_map_of_mem Prod.snd h
          simpa using this
        have ht0 : t0 ≠ t := by
          intro e
          subst e
          exact hnd'.1 ht
        simp only [List.map_cons, alGet, ht0, if_false]
        exact ih hnd'.2 h

/-- C9: for every raw channel name observed while building the store in
`transform_paths`, encoding it with the resulting table and decoding the
token through the inverted table returns the original raw name; this holds
because the token-allocation sequence never repeats a token. -/
theorem c9_encode_decode_roundtrip (records : List (String × Nat × Nat))
    (path_transform : List String → List String) (channel token : String)
    (h : alGet (transform_paths records path_transform).2 channel = some token) :
    alGet ((transform_paths records path_transform).2.map (fun p => (p.2, p.1)))
        token = some channel :=
  alGet_inverted_of_mem _
    (enc_tokens_nodup _ (transform_paths_good records path_transform))
    channel token (alGet_mem _ _ _ h)

/-- Witness for C9: building the table from the single record "A > B"
encodes A as "a"; decoding "a" through the inverted table returns "A". -/
theorem c9_encode_decode_roundtrip_witness :
    alGet ((transform_paths [("A > B", 1, 0)] unique_transform).2.map
        (fun p => (p.2, p.1))) "a" = some "A" :=
  c9_encode_decode_roundtrip [("A > B", 1, 0)] unique_transform "A" "a" rfl
